import Mathlib

/-!
Verification development for the SharedTree branch / transaction / revertible core.

The data model and operations below are a shallow embedding of:
  * `SharedTreeBranch` (packages/dds/tree/src/shared-tree-core/branch.ts),
  * `TreeCheckout` (packages/dds/tree/src/shared-tree/treeCheckout.ts,
    the version holding its own `TransactionStack`).

Machine-level details that the claims do not touch (telemetry, the forest,
commit enrichment, removed-root repair data) are omitted; everything the
claims mention is translated faithfully, statement by statement.  Helper
functions of the commit-graph core that are only *used* by these files
(`findAncestor`, `mintCommit`, `rebaseBranch`, `tagRollbackInverse`,
`rebaseChange`, the `TransactionStack`) are modelled from the spec and say
so in their doc comments.

Revision tags are modelled as `Nat`; the injected revision-minting function
is modelled as a counter threaded through the operations (each mint returns
the counter and increments it), which realises "freshly minted, globally
unique" revisions.  A commit is represented by the chain from itself back
to the root (newest first); this is exactly the information carried by a
parent-linked immutable commit node, and structural equality of chains
coincides with commit identity under the spec invariant that two commits
with the same revision but different ancestries never coexist.
-/

/-- A commit node's own payload: revision identifier plus opaque change. -/
structure Commit (T : Type) where
  revision : Nat
  change : T
deriving DecidableEq

/-- A commit of the graph, given as its ancestry chain: the commit itself
(`top`) plus the list of its ancestors, newest first.  `parent` is `none`
exactly when `ancestors` is empty. -/
structure GraphCommit (T : Type) where
  top : Commit T
  ancestors : List (Commit T)
deriving DecidableEq

/-- The full chain of a commit, newest first (the commit itself included). -/
def GraphCommit.chain {T : Type} (g : GraphCommit T) : List (Commit T) :=
  g.top :: g.ancestors

/-- The parent commit, or `none` for a root commit. -/
def GraphCommit.parent {T : Type} (g : GraphCommit T) : Option (GraphCommit T) :=
  match g.ancestors with
  | [] => none
  | a :: rest => some ⟨a, rest⟩

/-- A change together with its optional revision tag and optional
"rollback of" marker (mirrors `TaggedChange` of the core). -/
structure TaggedChange (T : Type) where
  revision : Option Nat
  rollbackOf : Option Nat
  change : T
deriving DecidableEq

/-- Mirrors `makeAnonChange`: a change with no revision tag. -/
def makeAnonChange {T : Type} (c : T) : TaggedChange T :=
  ⟨none, none, c⟩

/-- Mirrors `tagChange`: a change tagged with a revision. -/
def tagChange {T : Type} (c : T) (revision : Nat) : TaggedChange T :=
  ⟨some revision, none, c⟩

/-- Modelled from the spec: `tagRollbackInverse` of the commit-graph core is
not under src/.  Per §4.2 each rollback inverse is "tagged with a freshly
minted revision and marked as a rollback inverse referencing the original
commit it undoes". -/
def tagRollbackInverse {T : Type} (c : T) (revision rollbackOf : Nat) : TaggedChange T :=
  ⟨some revision, some rollbackOf, c⟩

/-- A `GraphCommit` viewed as the tagged change it carries (commits are fed
to `compose` directly in `merge` and `commitTransaction`). -/
def commitTagged {T : Type} (g : GraphCommit T) : TaggedChange T :=
  ⟨some g.top.revision, none, g.top.change⟩

/-- Mirrors `CommitKind` of the core. -/
inductive CommitKind where
  | Default
  | Undo
  | Redo
deriving DecidableEq

/-- The Change Family contract (§6): the pluggable algebra of opaque
changes that the branch core is generic over.  `compose` may throw in the
implementation, hence returns `Option` here (`none` = throw); `isEmpty`
is the "rebased form is a no-op" test of §4.3 step 4. -/
structure ChangeFamily (T : Type) where
  compose : List (TaggedChange T) → Option T
  invert : GraphCommit T → Bool → Nat → T
  rebase : T → TaggedChange T → T
  changeRevision : T → Nat → Option Nat → T
  isEmpty : T → Bool

/-- Modelled from the spec: `mintCommit` of the commit-graph core is not
under src/.  Per §3 a commit is an immutable node (parent, revision,
change); minting a commit appends a child of `parent` carrying the given
revision and change. -/
def mintCommit {T : Type} (parent : GraphCommit T) (c : Commit T) : GraphCommit T :=
  ⟨c, parent.chain⟩

/-- Modelled from the spec: `findAncestor` of the commit-graph core is not
under src/.  Per §4.1 it walks parent pointers from the start commit until
the predicate holds or the chain is exhausted, returning the matching
commit or `undefined`.  This is the walk over a chain given newest
first. -/
def findInChain {T : Type} (p : GraphCommit T → Bool) : List (Commit T) → Option (GraphCommit T)
  | [] => none
  | c :: rest =>
    let g : GraphCommit T := ⟨c, rest⟩
    if p g then some g else findInChain p rest

/-- Modelled from the spec: the path-accumulating form of `findAncestor`
(§4.1), which collects the visited commits excluding the match "for later
composition".  The walk visits child-to-parent; the returned list is in
application (oldest-to-newest) order so that composing it in list order is
the composition "of the individual edits' changes" demanded by §4.4's
squash and §8's transaction-atomicity property. -/
def findInChainPath {T : Type} (p : GraphCommit T → Bool) :
    List (Commit T) → Option (GraphCommit T × List (GraphCommit T))
  | [] => none
  | c :: rest =>
    let g : GraphCommit T := ⟨c, rest⟩
    if p g then some (g, [])
    else
      match findInChainPath p rest with
      | none => none
      | some (m, path) => some (m, path ++ [g])

/-- `findAncestor` on commits (no path). -/
def findAncestor {T : Type} (g : GraphCommit T) (p : GraphCommit T → Bool) :
    Option (GraphCommit T) :=
  findInChain p g.chain

/-- `findAncestor` on commits, accumulating the path (oldest first,
excluding the match). -/
def findAncestorPath {T : Type} (g : GraphCommit T) (p : GraphCommit T → Bool) :
    Option (GraphCommit T × List (GraphCommit T)) :=
  findInChainPath p g.chain

/-- The first `n` commits of a chain (newest first) as `GraphCommit`s with
their ancestries, returned oldest first.  Used to name the divergent
commits above a common ancestor. -/
def takeGraphCommits {T : Type} : Nat → List (Commit T) → List (GraphCommit T)
  | 0, _ => []
  | _ + 1, [] => []
  | n + 1, c :: rest => takeGraphCommits n rest ++ [⟨c, rest⟩]

/-- Longest shared head segment of two lists (used, reversed, to find the
shared ancestry of two chains). -/
def commonStem {T : Type} [DecidableEq T] : List T → List T → List T
  | a :: as', b :: bs => if a = b then a :: commonStem as' bs else []
  | _, _ => []

/-- Longest common suffix of two chains: the shared ancestry of two
commits (§4.3 step 1, "find common ancestor of source and target
chains"). -/
def commonSuffix {T : Type} [DecidableEq T] (xs ys : List T) : List T :=
  (commonStem xs.reverse ys.reverse).reverse

/-- The structured result of the rebase algorithm (§4.3 step 5 and §3
"Rebase result"). -/
structure BranchRebaseResult (T : Type) where
  newSourceHead : GraphCommit T
  sourceChange : Option T
  deletedSourceCommits : List (GraphCommit T)
  targetCommits : List (GraphCommit T)
  sourceCommits : List (GraphCommit T)
deriving DecidableEq

/-- Rebase one divergent source change over all divergent target commits,
step by step, oldest to newest (§4.3 step 3 allows either this incremental
strategy or composing the target side first; the incremental one is chosen
and applied consistently). -/
def rebaseOverAll {T : Type} (fam : ChangeFamily T) (tgt : List (GraphCommit T)) (c : T) : T :=
  tgt.foldl (fun ch t => fam.rebase ch (commitTagged t)) c

/-- Rebuild the divergent source commits on top of `base`: each divergent
source commit, oldest to newest, has its change rebased over the target
divergence; a commit whose rebased form is a no-op is deleted, the others
are minted as new commits parented on the growing chain (§4.3 steps 3-4).
Returns (new head, new commits oldest first, deleted originals). -/
def rebuildSourceCommits {T : Type} (fam : ChangeFamily T) (tgt : List (GraphCommit T)) :
    List (GraphCommit T) → GraphCommit T →
      GraphCommit T × List (GraphCommit T) × List (GraphCommit T)
  | [], base => (base, [], [])
  | s :: rest, base =>
    let r := rebaseOverAll fam tgt s.top.change
    if fam.isEmpty r then
      let (h, news, dels) := rebuildSourceCommits fam tgt rest base
      (h, news, s :: dels)
    else
      let minted := mintCommit base ⟨s.top.revision, r⟩
      let (h, news, dels) := rebuildSourceCommits fam tgt rest minted
      (h, minted :: news, dels)

/-- Rollback inverses of a list of commits given newest first, minting one
fresh revision per inverse; returns the tagged inverses (in the given
order) and the advanced mint counter. -/
def rollbackInversesOf {T : Type} (fam : ChangeFamily T) :
    List (GraphCommit T) → Nat → List (TaggedChange T) × Nat
  | [], ctr => ([], ctr)
  | g :: rest, ctr =>
    let inv := tagRollbackInverse (fam.invert g true ctr) ctr g.top.revision
    let (invs, ctr') := rollbackInversesOf fam rest (ctr + 1)
    (inv :: invs, ctr')

/-- Modelled from the spec: the commit-graph core's `rebaseBranch` function
is not under src/ (only its caller `SharedTreeBranch` is).  Per §4.3: find
the common ancestor of the source and target chains; collect the divergent
source commits (ancestor-exclusive, head-inclusive) and divergent target
commits; rebase each divergent source commit, oldest to newest, over the
target divergence, minting new commits parented on the target boundary;
track deleted (no-op) source commits; produce the new source head, the
composed net `sourceChange`, and the structured commit lists.  A failing
composition is a thrown error (`Except.error`).  The returned counter
reflects the revisions minted for the net-change inverses. -/
def rebaseBranchCore {T : Type} [DecidableEq T] (fam : ChangeFamily T) (ctr : Nat)
    (head upTo ontoHead : GraphCommit T) : Except String (BranchRebaseResult T × Nat) :=
  let anc := commonSuffix head.chain upTo.chain
  if anc.isEmpty then .error "rebaseBranch: no common ancestor" else
  let srcDiv := takeGraphCommits (head.chain.length - anc.length) head.chain
  let tgtDiv := takeGraphCommits (upTo.chain.length - anc.length) upTo.chain
  let (newSourceHead, newCommits, deleted) := rebuildSourceCommits fam tgtDiv srcDiv ontoHead
  let (inverses, ctr') := rollbackInversesOf fam srcDiv.reverse ctr
  let netList := inverses ++ tgtDiv.map commitTagged ++ newCommits.map commitTagged
  match netList with
  | [] => .ok (⟨newSourceHead, none, deleted, tgtDiv, newCommits⟩, ctr')
  | _ =>
    match fam.compose netList with
    | none => .error "rebaseBranch: compose threw while computing the net source change"
    | some net => .ok (⟨newSourceHead, some net, deleted, tgtDiv, newCommits⟩, ctr')

/-- Mirrors `SharedTreeBranchChange`: the structured description of a head
mutation carried by `beforeChange`/`afterChange`. -/
inductive SharedTreeBranchChange (T : Type) where
  | append (kind : CommitKind) (change : TaggedChange T) (newCommits : List (GraphCommit T))
  | rollbackEvent (change : Option (TaggedChange T)) (removedCommits : List (GraphCommit T))
  | rebaseEvent (change : Option (TaggedChange T)) (removedCommits newCommits : List (GraphCommit T))
deriving DecidableEq

/-- One observable action of a branch operation, in program order: an event
emission or the head-pointer assignment.  Traces make the temporal claims
(events strictly before/after mutation) statable. -/
inductive BranchAction (T : Type) where
  | emitBefore (change : SharedTreeBranchChange T)
  | setHead (head : GraphCommit T)
  | emitAfter (change : SharedTreeBranchChange T)
  | emitFork
  | emitDispose
deriving DecidableEq

/-- Mirrors `SharedTreeBranch`: a mutable head over the commit graph plus
the disposed flag.  The change family and the injected revision minter are
passed to the operations rather than stored. -/
structure SharedTreeBranch (T : Type) where
  head : GraphCommit T
  disposed : Bool
deriving DecidableEq

/-- Result of one branch operation: the branch afterwards, the advanced
mint counter, the ordered trace of emissions/mutations, and the returned
value or thrown error. -/
structure BranchOutcome (T α : Type) where
  branch : SharedTreeBranch T
  counter : Nat
  trace : List (BranchAction T)
  result : Except String α

instance {ε α : Type} [DecidableEq ε] [DecidableEq α] : DecidableEq (Except ε α)
  | .error e, .error f => decidable_of_iff (e = f) (by simp)
  | .ok x, .ok y => decidable_of_iff (x = y) (by simp)
  | .error _, .ok _ => isFalse (fun h => Except.noConfusion h)
  | .ok _, .error _ => isFalse (fun h => Except.noConfusion h)

instance {T α : Type} [DecidableEq T] [DecidableEq α] : DecidableEq (BranchOutcome T α) :=
  fun a b =>
    decidable_of_iff
      (a.branch = b.branch ∧ a.counter = b.counter ∧ a.trace = b.trace ∧ a.result = b.result)
      (by cases a; cases b; simp)

/-- Mirrors `SharedTreeBranch.setHead`: sets the head, emitting no change
events; fails on a disposed branch. -/
def SharedTreeBranch.setHeadOp {T : Type} (br : SharedTreeBranch T) (ctr : Nat)
    (h : GraphCommit T) : BranchOutcome T Unit :=
  if br.disposed then ⟨br, ctr, [], .error "0x66e: Branch is disposed"⟩
  else ⟨{ br with head := h }, ctr, [], .ok ()⟩

/-- Mirrors `SharedTreeBranch.apply`: asserts the branch not disposed and
the tagged change carries a revision, mints the commit as a child of the
head, emits `beforeChange`, assigns the head, emits `afterChange`, and
returns the change with the new head commit.  The revision used is exactly
the one carried by `taggedChange`: `apply` itself never mints (the counter
is returned untouched). -/
def SharedTreeBranch.apply {T : Type} (br : SharedTreeBranch T) (ctr : Nat)
    (taggedChange : TaggedChange T) (kind : CommitKind) :
    BranchOutcome T (T × GraphCommit T) :=
  if br.disposed then ⟨br, ctr, [], .error "0x66e: Branch is disposed"⟩
  else
    match taggedChange.revision with
    | none => ⟨br, ctr, [], .error "0xa49: Revision tag must be provided"⟩
    | some rev =>
      let newHead := mintCommit br.head ⟨rev, taggedChange.change⟩
      let ev : SharedTreeBranchChange T := .append kind taggedChange [newHead]
      ⟨{ br with head := newHead }, ctr,
        [.emitBefore ev, .setHead newHead, .emitAfter ev],
        .ok (taggedChange.change, newHead)⟩

/-- The ancestry walk of `SharedTreeBranch.rollback`: `findAncestor` run
with the effectful predicate that, for each visited commit (the inverse is
computed and pushed before the revision test, so the matched commit
included), mints a fresh revision, inverts the commit as a rollback,
retags the inverse, and collects it.  Returns the advanced counter, the
inverses in visit (child-to-parent) order, the removed commits (visited
excluding the match) oldest first, and the found ancestor. -/
def rollbackWalkChain {T : Type} (fam : ChangeFamily T) (target : Nat) :
    List (Commit T) → Nat →
      Nat × List (TaggedChange T) × List (GraphCommit T) × Option (GraphCommit T)
  | [], ctr => (ctr, [], [], none)
  | c :: rest, ctr =>
    let g : GraphCommit T := ⟨c, rest⟩
    let rev := ctr
    let inv := fam.changeRevision (fam.invert g true rev) rev (some c.revision)
    let tg := tagRollbackInverse inv rev c.revision
    if c.revision = target then (ctr + 1, [tg], [], some g)
    else
      let (ctr', invs, removed, res) := rollbackWalkChain fam target rest (ctr + 1)
      (ctr', tg :: invs, removed ++ [g], res)

/-- Mirrors `SharedTreeBranch.rollback`: walks the ancestry back to the
commit with the given revision (note: no disposed check appears in the
source), asserts the revision was found, composes the collected inverses,
emits the rollback-typed events around the head assignment, and returns
the removed commits.  A failing composition is a thrown error before any
event. -/
def SharedTreeBranch.rollback {T : Type} (fam : ChangeFamily T) (br : SharedTreeBranch T)
    (ctr : Nat) (newHeadRevision : Nat) : BranchOutcome T (List (GraphCommit T)) :=
  let (ctr', inverses, removedCommits, newHead?) :=
    rollbackWalkChain fam newHeadRevision br.head.chain ctr
  match newHead? with
  | none => ⟨br, ctr', [], .error "Rollback failed: no such revision on branch"⟩
  | some newHead =>
    let change? : Option (Option (TaggedChange T)) :=
      if inverses.length > 0 then
        match fam.compose inverses with
        | none => none
        | some ch => some (some (makeAnonChange ch))
      else some none
    match change? with
    | none => ⟨br, ctr', [], .error "rollback: compose threw"⟩
    | some change =>
      let ev : SharedTreeBranchChange T := .rollbackEvent change removedCommits
      ⟨{ br with head := newHead }, ctr',
        [.emitBefore ev, .setHead newHead, .emitAfter ev],
        .ok removedCommits⟩

/-- Mirrors `SharedTreeBranch.fork`: asserts not disposed, creates a new
branch at the given commit, and emits a `fork` event. -/
def SharedTreeBranch.fork {T : Type} (br : SharedTreeBranch T) (ctr : Nat)
    (commit : GraphCommit T) : BranchOutcome T (SharedTreeBranch T) :=
  if br.disposed then ⟨br, ctr, [], .error "0x66e: Branch is disposed"⟩
  else ⟨br, ctr, [.emitFork], .ok ⟨commit, false⟩⟩

/-- Mirrors the private `SharedTreeBranch.rebaseBranch`: returns `none`
(no-op) when the rebased head already equals `upTo`, otherwise runs the
core rebase algorithm and additionally returns `none` when the calling
branch's head already equals the produced new source head. -/
def SharedTreeBranch.rebaseBranchPriv {T : Type} [DecidableEq T] (fam : ChangeFamily T)
    (ctr : Nat) (selfHead branchHead upTo ontoHead : GraphCommit T) :
    Except String (Option (BranchRebaseResult T) × Nat) :=
  if branchHead = upTo then .ok (none, ctr)
  else
    match rebaseBranchCore fam ctr branchHead upTo ontoHead with
    | .error e => .error e
    | .ok (output, ctr') =>
      if selfHead = output.newSourceHead then .ok (none, ctr')
      else .ok (some output, ctr')

/-- Mirrors `SharedTreeBranch.rebaseOnto`: asserts not disposed, rebases
this branch onto the target up to `upTo`; on a no-op returns `undefined`
with no mutation and no events, otherwise emits the rebase-typed events
around the head assignment and returns the rebase result. -/
def SharedTreeBranch.rebaseOnto {T : Type} [DecidableEq T] (fam : ChangeFamily T)
    (br target : SharedTreeBranch T) (ctr : Nat) (upTo : GraphCommit T) :
    BranchOutcome T (Option (BranchRebaseResult T)) :=
  if br.disposed then ⟨br, ctr, [], .error "0x66e: Branch is disposed"⟩
  else
    match SharedTreeBranch.rebaseBranchPriv fam ctr br.head br.head upTo target.head with
    | .error e => ⟨br, ctr, [], .error e⟩
    | .ok (none, ctr') => ⟨br, ctr', [], .ok none⟩
    | .ok (some res, ctr') =>
      let newCommits := res.targetCommits ++ res.sourceCommits
      let ev : SharedTreeBranchChange T :=
        .rebaseEvent (res.sourceChange.map makeAnonChange) res.deletedSourceCommits newCommits
      ⟨{ br with head := res.newSourceHead }, ctr',
        [.emitBefore ev, .setHead res.newSourceHead, .emitAfter ev],
        .ok (some res)⟩

/-- Mirrors `SharedTreeBranch.merge`: asserts both branches not disposed,
no-ops on a self-merge, rebases the other branch onto this one, composes
the rebased commits into the reported net change, and emits append-typed
events around the head assignment. -/
def SharedTreeBranch.merge {T : Type} [DecidableEq T] (fam : ChangeFamily T)
    (br other : SharedTreeBranch T) (ctr : Nat) :
    BranchOutcome T (Option (T × List (GraphCommit T))) :=
  if br.disposed then ⟨br, ctr, [], .error "0x66e: Branch is disposed"⟩
  else if other.disposed then ⟨br, ctr, [], .error "0x66e: Branch is disposed"⟩
  else if other = br then ⟨br, ctr, [], .ok none⟩
  else
    match SharedTreeBranch.rebaseBranchPriv fam ctr br.head other.head br.head br.head with
    | .error e => ⟨br, ctr, [], .error e⟩
    | .ok (none, ctr') => ⟨br, ctr', [], .ok none⟩
    | .ok (some res, ctr') =>
      let sourceCommits := res.sourceCommits
      match fam.compose (sourceCommits.map commitTagged) with
      | none => ⟨br, ctr', [], .error "merge: compose threw"⟩
      | some change =>
        let ev : SharedTreeBranchChange T :=
          .append .Default (makeAnonChange change) sourceCommits
        ⟨{ br with head := res.newSourceHead }, ctr',
          [.emitBefore ev, .setHead res.newSourceHead, .emitAfter ev],
          .ok (some (change, sourceCommits))⟩

/-- Mirrors `SharedTreeBranch.dispose`: a no-op (no event) when already
disposed, otherwise marks disposed and emits the terminal `dispose`
event. -/
def SharedTreeBranch.disposeOp {T : Type} (br : SharedTreeBranch T) (ctr : Nat) :
    BranchOutcome T Unit :=
  if br.disposed then ⟨br, ctr, [], .ok ()⟩
  else ⟨{ br with disposed := true }, ctr, [.emitDispose], .ok ()⟩

/-- Mirrors the second `TreeCheckout` implementation of treeCheckout.ts
(the one with its own `TransactionStack`).  The fields kept are the ones
the verified claims touch; the transaction stack (whose implementation is
not under src/ and is modelled from spec §4.4: a LIFO stack of frames
recording the head revision at transaction start) is the list of start
revisions, top of the stack first.  The fork registries held by the real
frames only drive fork disposal on pop, which no claim observes, and are
omitted.  `revertibleBranches` maps a revision to the head commit of the
branch forked to pin it; `revertibles` is the set of live revertible
handles (identified by their revision); `views` counts the live views;
`counter` is the state of the injected revision minter. -/
structure TreeCheckout (T : Type) where
  branch : SharedTreeBranch T
  disposed : Bool
  transactions : List Nat
  initialTransactionRevToRebasedRev : List (Nat × Nat)
  removedRootsSnapshots : Nat
  revertibleBranches : List (Nat × GraphCommit T)
  revertibles : List Nat
  views : Nat
  counter : Nat
deriving DecidableEq

/-- Result of one checkout operation: the checkout afterwards, the trace
of branch actions it caused, and the returned value or thrown error. -/
structure CheckoutOutcome (T α : Type) where
  checkout : TreeCheckout T
  trace : List (BranchAction T)
  result : Except String α

instance {T α : Type} [DecidableEq T] [DecidableEq α] : DecidableEq (CheckoutOutcome T α) :=
  fun a b =>
    decidable_of_iff
      (a.checkout = b.checkout ∧ a.trace = b.trace ∧ a.result = b.result)
      (by cases a; cases b; simp)

/-- Association-list lookup for revision-keyed maps. -/
def lookupRev {T : Type} : List (Nat × T) → Nat → Option T
  | [], _ => none
  | (k, v) :: rest, r => if k = r then some v else lookupRev rest r

/-- Association-list removal for revision-keyed maps. -/
def removeRev {T : Type} : List (Nat × T) → Nat → List (Nat × T)
  | [], _ => []
  | (k, v) :: rest, r => if k = r then removeRev rest r else (k, v) :: removeRev rest r

/-- The `while (map.has(rev)) rev = map.get(rev)` chase of
`popTransaction` over `initialTransactionRevToRebasedRev`, made total with
fuel; for an acyclic map (the only state the program produces) a fuel of
the map's size reaches the fixed point. -/
def chaseRev (m : List (Nat × Nat)) : Nat → Nat → Nat
  | 0, r => r
  | fuel + 1, r =>
    match lookupRev m r with
    | none => r
    | some r' => chaseRev m fuel r'

/-- Mirrors `TreeCheckout.checkNotDisposed`: with a usage message it
throws a `UsageError`, without one it hits the 0x911 assert. -/
def TreeCheckout.checkNotDisposed {T : Type} (cs : TreeCheckout T) (usageError : Option String) :
    Except String Unit :=
  if cs.disposed then
    match usageError with
    | some msg => .error msg
    | none => .error "0x911: Invalid operation on a disposed TreeCheckout"
  else .ok ()

/-- Mirrors `TreeCheckout.startTransaction`: asserts not disposed, pushes
the branch head's revision as the start revision of a new transaction
frame, and snapshots the removed roots.  (The transitive fork registry the
real frame also records only drives fork disposal on pop and is not
modelled; the editor and commit enricher hold no modelled state.) -/
def TreeCheckout.startTransaction {T : Type} (cs : TreeCheckout T) :
    CheckoutOutcome T Unit :=
  match cs.checkNotDisposed none with
  | .error e => ⟨cs, [], .error e⟩
  | .ok () =>
    ⟨{ cs with
        transactions := cs.branch.head.top.revision :: cs.transactions,
        removedRootsSnapshots := cs.removedRootsSnapshots + 1 }, [], .ok ()⟩

/-- Mirrors `TreeCheckout.isTransacting`. -/
def TreeCheckout.isTransacting {T : Type} (cs : TreeCheckout T) : Bool :=
  cs.transactions.length != 0

/-- Mirrors the private `TreeCheckout.popTransaction`: pops the top frame
(popping an empty stack is the fatal condition of spec §4.4), chases the
start revision through `initialTransactionRevToRebasedRev`, clears that
map when the outermost transaction ends, and walks the ancestry back to
the start commit, collecting the commits made since (oldest first);
failing to find the start commit is the 0x593 assertion. -/
def TreeCheckout.popTransaction {T : Type} (cs : TreeCheckout T) :
    Except String (TreeCheckout T × GraphCommit T × List (GraphCommit T)) :=
  match cs.transactions with
  | [] => .error "transaction stack is empty"
  | startRevisionOriginal :: rest =>
    let startRevision :=
      chaseRev cs.initialTransactionRevToRebasedRev
        cs.initialTransactionRevToRebasedRev.length startRevisionOriginal
    let cs1 := { cs with transactions := rest }
    let cs2 :=
      if cs1.isTransacting then cs1
      else { cs1 with initialTransactionRevToRebasedRev := [] }
    match findAncestorPath cs2.branch.head (fun c => c.top.revision = startRevision) with
    | none => .error "0x593: Expected branch to be ahead of transaction start revision"
    | some (startCommit, commits) => .ok (cs2, startCommit, commits)

/-- Mirrors `TreeCheckout.commitTransaction`: asserts not disposed, pops
the transaction, discards the latest removed-roots snapshot, no-ops when
the transaction made no commits, and otherwise rolls the branch back to
the start revision, composes the transaction's commits, and applies the
composition as a single new commit whose revision is freshly minted. -/
def TreeCheckout.commitTransaction {T : Type} (fam : ChangeFamily T) (cs : TreeCheckout T) :
    CheckoutOutcome T Unit :=
  match cs.checkNotDisposed none with
  | .error e => ⟨cs, [], .error e⟩
  | .ok () =>
    match cs.popTransaction with
    | .error e => ⟨cs, [], .error e⟩
    | .ok (cs1, startCommit, commits) =>
      let cs2 := { cs1 with removedRootsSnapshots := cs1.removedRootsSnapshots - 1 }
      if commits.isEmpty then ⟨cs2, [], .ok ()⟩
      else
        let ro := SharedTreeBranch.rollback fam cs2.branch cs2.counter startCommit.top.revision
        let cs3 := { cs2 with branch := ro.branch, counter := ro.counter }
        match ro.result with
        | .error e => ⟨cs3, ro.trace, .error e⟩
        | .ok _removedCommits =>
          match fam.compose (commits.map commitTagged) with
          | none => ⟨cs3, ro.trace, .error "commitTransaction: compose threw"⟩
          | some change =>
            let ao := SharedTreeBranch.apply cs3.branch (cs3.counter + 1)
              (tagChange change cs3.counter) CommitKind.Default
            let cs4 := { cs3 with branch := ao.branch, counter := ao.counter }
            match ao.result with
            | .error e => ⟨cs4, ro.trace ++ ao.trace, .error e⟩
            | .ok _ => ⟨cs4, ro.trace ++ ao.trace, .ok ()⟩

/-- Mirrors `TreeCheckout.abortTransaction`: asserts not disposed, pops
the transaction, and if any commits were made rolls the branch back to the
start revision; either way the latest removed-roots snapshot is reinstated
(its absence is the 0x9ae assertion). -/
def TreeCheckout.abortTransaction {T : Type} (fam : ChangeFamily T) (cs : TreeCheckout T) :
    CheckoutOutcome T Unit :=
  match cs.checkNotDisposed none with
  | .error e => ⟨cs, [], .error e⟩
  | .ok () =>
    match cs.popTransaction with
    | .error e => ⟨cs, [], .error e⟩
    | .ok (cs1, startCommit, commits) =>
      if commits.isEmpty then
        if cs1.removedRootsSnapshots = 0 then
          ⟨cs1, [], .error "0x9ae: a snapshot for removed roots does not exist"⟩
        else
          ⟨{ cs1 with removedRootsSnapshots := cs1.removedRootsSnapshots - 1 }, [], .ok ()⟩
      else
        let ro := SharedTreeBranch.rollback fam cs1.branch cs1.counter startCommit.top.revision
        let cs2 := { cs1 with branch := ro.branch, counter := ro.counter }
        match ro.result with
        | .error e => ⟨cs2, ro.trace, .error e⟩
        | .ok _ =>
          if cs2.removedRootsSnapshots = 0 then
            ⟨cs2, ro.trace, .error "0x9ae: a snapshot for removed roots does not exist"⟩
          else
            ⟨{ cs2 with removedRootsSnapshots := cs2.removedRootsSnapshots - 1 },
              ro.trace, .ok ()⟩

/-- Mirrors `RevertibleStatus`. -/
inductive RevertibleStatus where
  | Valid
  | Disposed
deriving DecidableEq

/-- Status of the revertible handle for `revision`: `Valid` while the
pinning branch is registered, `Disposed` once it has been removed
(mirrors the `status` getter of the handle built in the `afterChange`
listener). -/
def TreeCheckout.revertibleStatus {T : Type} (cs : TreeCheckout T) (revision : Nat) :
    RevertibleStatus :=
  match lookupRev cs.revertibleBranches revision with
  | none => RevertibleStatus.Disposed
  | some _ => RevertibleStatus.Valid

/-- Mirrors the private `TreeCheckout.disposeRevertible`: disposes the
pinning fork branch, drops it from the registry, and removes the handle
from the live set. -/
def TreeCheckout.disposeRevertible {T : Type} (cs : TreeCheckout T) (revision : Nat) :
    TreeCheckout T :=
  { cs with
      revertibleBranches := removeRev cs.revertibleBranches revision,
      revertibles := cs.revertibles.erase revision }

/-- Mirrors the `dispose` method of a revertible handle: throws a usage
error when the handle is already disposed, otherwise disposes it. -/
def TreeCheckout.revertibleDispose {T : Type} (cs : TreeCheckout T) (revision : Nat) :
    Except String (TreeCheckout T) :=
  if cs.revertibleStatus revision = RevertibleStatus.Disposed then
    .error "Unable to dispose a revertible that has already been disposed."
  else .ok (cs.disposeRevertible revision)

/-- Modelled from the spec: the core's `rebaseChange` function is not
under src/ (only its caller `TreeCheckout.revertRevertible` is).  Per
§4.5 the inverse is rebased "forward over any commits applied since (to
account for concurrent changes)": the commits between the reverted commit
and the branch head are collected (oldest first) and the change is rebased
over each in turn; the reverted commit not being an ancestor of the head
is a fatal missing-ancestor condition (§7). -/
def rebaseChangeModel {T : Type} (fam : ChangeFamily T) (change : T)
    (sourceCommit headCommit : GraphCommit T) : Except String T :=
  match findAncestorPath headCommit (fun c => c.top.revision = sourceCommit.top.revision) with
  | none => .error "rebaseChange: expected ancestor"
  | some (_, since) =>
    .ok (since.foldl (fun ch c => fam.rebase ch (commitTagged c)) change)

/-- Mirrors the private `TreeCheckout.revertRevertible`: refuses to revert
during a transaction, looks up the pinned commit (0x7cc assertion),
inverts it under a freshly minted revision, rebases the inverse forward to
the branch head when commits were applied since, and applies the result
with the alternated Undo/Redo kind.  The revert-age statistics loop (which
asserts the reverted commit is reachable from the old head) holds no
modelled state and terminates by the same reachability the rebase step
established. -/
def TreeCheckout.revertRevertible {T : Type} [DecidableEq T] (fam : ChangeFamily T) (cs : TreeCheckout T)
    (revision : Nat) (kind : CommitKind) : CheckoutOutcome T Unit :=
  if cs.isTransacting then
    ⟨cs, [], .error "Undo is not yet supported during transactions."⟩
  else
    match lookupRev cs.revertibleBranches revision with
    | none => ⟨cs, [], .error "0x7cc: expected to find a revertible commit"⟩
    | some commitToRevert =>
      let revisionForInvert := cs.counter
      let cs1 := { cs with counter := cs.counter + 1 }
      let change0 := tagChange (fam.invert commitToRevert false revisionForInvert)
        revisionForInvert
      let headCommit := cs1.branch.head
      let change? : Except String (TaggedChange T) :=
        if commitToRevert = headCommit then .ok change0
        else
          match rebaseChangeModel fam change0.change commitToRevert headCommit with
          | .error e => .error e
          | .ok c => .ok (tagChange c revisionForInvert)
      match change? with
      | .error e => ⟨cs1, [], .error e⟩
      | .ok change =>
        let ao := SharedTreeBranch.apply cs1.branch cs1.counter change
          (if kind = CommitKind.Default || kind = CommitKind.Redo then CommitKind.Undo
           else CommitKind.Redo)
        let cs2 := { cs1 with branch := ao.branch, counter := ao.counter }
        match ao.result with
        | .error e => ⟨cs2, ao.trace, .error e⟩
        | .ok _ => ⟨cs2, ao.trace, .ok ()⟩

/-- Mirrors the `revert` method of a revertible handle: throws a usage
error when the handle is already disposed, otherwise reverts the commit
and, when `release` is set (its default), disposes the handle. -/
def TreeCheckout.revertibleRevert {T : Type} [DecidableEq T] (fam : ChangeFamily T) (cs : TreeCheckout T)
    (revision : Nat) (kind : CommitKind) (release : Bool) : CheckoutOutcome T Unit :=
  if cs.revertibleStatus revision = RevertibleStatus.Disposed then
    ⟨cs, [], .error "Unable to revert a revertible that has been disposed."⟩
  else
    match cs.revertRevertible fam revision kind with
    | ⟨csr, trr, .error e⟩ => ⟨csr, trr, .error e⟩
    | ⟨csr, trr, .ok _⟩ =>
      if release then
        match csr.revertibleDispose revision with
        | .error e => ⟨csr, trr, .error e⟩
        | .ok cs' => ⟨cs', trr, .ok ()⟩
      else ⟨csr, trr, .ok ()⟩

/-- Mirrors the private `TreeCheckout.purgeRevertibles`: disposes every
outstanding revertible handle in turn. -/
def TreeCheckout.purgeRevertibles {T : Type} :
    List Nat → TreeCheckout T → Except String (TreeCheckout T)
  | [], cs => .ok cs
  | r :: rest, cs =>
    match cs.revertibleDispose r with
    | .error e => .error e
    | .ok cs' => TreeCheckout.purgeRevertibles rest cs'

/-- The `while (this.isTransacting()) this.abortTransaction()` loop of
`TreeCheckout[disposeSymbol]`, with fuel (each successful abort pops
exactly one frame, so a fuel of the stack's depth runs the loop to
completion). -/
def TreeCheckout.disposeAbortLoop {T : Type} (fam : ChangeFamily T) :
    Nat → TreeCheckout T → CheckoutOutcome T Unit
  | 0, cs => ⟨cs, [], .ok ()⟩
  | fuel + 1, cs =>
    if cs.isTransacting then
      let o := cs.abortTransaction fam
      match o.result with
      | .error e => ⟨o.checkout, o.trace, .error e⟩
      | .ok () =>
        let r := TreeCheckout.disposeAbortLoop fam fuel o.checkout
        ⟨r.checkout, o.trace ++ r.trace, r.result⟩
    else ⟨cs, [], .ok ()⟩

/-- Mirrors `TreeCheckout[disposeSymbol]` (reached by
`TreeCheckout.dispose`): throws a usage error when already disposed,
marks the checkout disposed, aborts the ongoing transactions innermost
first, purges the outstanding revertibles, disposes the underlying
branch, and disposes every view created from this checkout. -/
def TreeCheckout.dispose {T : Type} (fam : ChangeFamily T) (cs : TreeCheckout T) :
    CheckoutOutcome T Unit :=
  match cs.checkNotDisposed
      (some "The branch has already been disposed and cannot be disposed again.") with
  | .error e => ⟨cs, [], .error e⟩
  | .ok () =>
    let cs1 := { cs with disposed := true }
    let lo := TreeCheckout.disposeAbortLoop fam cs1.transactions.length cs1
    match lo.result with
    | .error e => ⟨lo.checkout, lo.trace, .error e⟩
    | .ok () =>
      match TreeCheckout.purgeRevertibles lo.checkout.revertibles lo.checkout with
      | .error e => ⟨lo.checkout, lo.trace, .error e⟩
      | .ok cs2 =>
        let bo := SharedTreeBranch.disposeOp cs2.branch cs2.counter
        let cs3 := { cs2 with branch := bo.branch, counter := bo.counter, views := 0 }
        ⟨cs3, lo.trace ++ bo.trace, .ok ()⟩

/-- The commits a client mints while editing inside a transaction: one
commit per change, with consecutive freshly minted revisions starting at
`ctr`.  (Spec-side vocabulary for the transaction-atomicity statement.) -/
def mintedCommits {T : Type} : List T → Nat → List (Commit T)
  | [], _ => []
  | ch :: rest, ctr => ⟨ctr, ch⟩ :: mintedCommits rest (ctr + 1)

/-- Apply a list of changes to a branch the way the editor does: each
change is tagged with a freshly minted revision and applied with the
default kind.  (Spec-side vocabulary for the transaction-atomicity
statement.) -/
def applyChanges {T : Type} (br : SharedTreeBranch T) (ctr : Nat) :
    List T → SharedTreeBranch T × Nat
  | [] => (br, ctr)
  | ch :: rest =>
    let o := SharedTreeBranch.apply br ctr (tagChange ch ctr) CommitKind.Default
    applyChanges o.branch (ctr + 1) rest

/-- The rollback inverses of the first `count` commits of a chain as the
rollback walk tags them: visit order, one freshly minted revision each,
starting at `ctr`.  (Spec-side vocabulary for the rollback statements.) -/
def chainInverses {T : Type} (fam : ChangeFamily T) :
    List (Commit T) → Nat → Nat → List (TaggedChange T)
  | _, _, 0 => []
  | [], _, _ + 1 => []
  | c :: rest, ctr, n + 1 =>
    tagRollbackInverse (fam.changeRevision (fam.invert ⟨c, rest⟩ true ctr) ctr (some c.revision))
        ctr c.revision
      :: chainInverses fam rest (ctr + 1) n

/-- Event/mutation discipline of one branch operation, relative to the
branch it started from: on a thrown error nothing was emitted and the
branch is untouched; on success either nothing was emitted and the head is
unchanged (the no-op paths), or the trace is exactly a `beforeChange`
emission, the head assignment, and an `afterChange` emission, the two
events carrying the same change description and the assigned head being
the operation's final head. -/
def atomicOutcome {T α : Type} (br0 : SharedTreeBranch T) (o : BranchOutcome T α) : Prop :=
  match o.result with
  | .error _ => o.branch = br0 ∧ o.trace = []
  | .ok _ =>
    (o.trace = [] ∧ o.branch.head = br0.head) ∨
    (∃ ev, o.trace = [.emitBefore ev, .setHead o.branch.head, .emitAfter ev])

/-- A concrete change family over `List Int` edits: composition
concatenates, inversion negates and reverses, rebasing leaves a change
unaffected, and only the empty edit is a no-op.  Used to run the branch
operations on closed inputs. -/
def famL : ChangeFamily (List Int) where
  compose l := some (l.flatMap (fun tc => tc.change))
  invert g _ _ := (g.top.change.map (fun z => -z)).reverse
  rebase c _ := c
  changeRevision c _ _ := c
  isEmpty c := c.isEmpty

/-- A change family identical to `famL` except that every composition
throws.  Used to run the throw-during-composition paths on closed
inputs. -/
def famThrow : ChangeFamily (List Int) where
  compose _ := none
  invert g _ _ := (g.top.change.map (fun z => -z)).reverse
  rebase c _ := c
  changeRevision c _ _ := c
  isEmpty c := c.isEmpty

/-- Root commit used by the closed examples. -/
def c0 : Commit (List Int) := ⟨0, [10]⟩

/-- A first child commit used by the closed examples. -/
def c1 : Commit (List Int) := ⟨1, [11]⟩

/-- A second child commit used by the closed examples. -/
def c2 : Commit (List Int) := ⟨2, [12]⟩

/-- A divergent commit used by the closed examples. -/
def c3 : Commit (List Int) := ⟨3, [13]⟩

/-- The root as a graph commit. -/
def g0 : GraphCommit (List Int) := ⟨c0, []⟩

/-- Chain root ← c1. -/
def g1 : GraphCommit (List Int) := ⟨c1, [c0]⟩

/-- Chain root ← c1 ← c2. -/
def g2 : GraphCommit (List Int) := ⟨c2, [c1, c0]⟩

/-- Chain root ← c3 (diverging from `g1`/`g2` at the root). -/
def g3 : GraphCommit (List Int) := ⟨c3, [c0]⟩

/-- Claim C2: for every branch and every target branch, calling
`branch.rebaseOnto(target, upTo)` when the branch's head commit is the
same commit as `upTo` returns undefined, leaves the branch's head
unchanged, and emits no `beforeChange` or `afterChange` events (stated for
a live, i.e. not disposed, branch — a disposed branch fails its
`assertNotDisposed` guard before the no-op check). -/
theorem claim_C2_noop_rebaseOnto {T : Type} [DecidableEq T] (fam : ChangeFamily T)
    (br target : SharedTreeBranch T) (ctr : Nat) (upTo : GraphCommit T)
    (hdisp : br.disposed = false) (hup : br.head = upTo) :
    SharedTreeBranch.rebaseOnto fam br target ctr upTo = ⟨br, ctr, [], .ok none⟩ := by
  unfold SharedTreeBranch.rebaseOnto SharedTreeBranch.rebaseBranchPriv
  simp [hdisp, hup]

/-- Witness for C2 at a concrete branch. -/
theorem claim_C2_noop_rebaseOnto_witness :
    SharedTreeBranch.rebaseOnto famL ⟨g2, false⟩ ⟨g3, false⟩ 7 g2 =
      ⟨⟨g2, false⟩, 7, [], .ok none⟩ :=
  claim_C2_noop_rebaseOnto famL ⟨g2, false⟩ ⟨g3, false⟩ 7 g2 rfl rfl

/-- Claim C5: every call to `branch.apply(taggedChange, kind)` on a live
branch appends exactly one new commit as a child of the current head,
carrying the given change and the revision carried by the tagged change
(the freshly minted revision its producer attached — `apply` itself never
mints one, which the untouched mint counter exhibits, and it requires the
revision to be present), and returns the applied change together with the
new head commit. -/
theorem claim_C5_apply_appends_one_commit {T : Type} (br : SharedTreeBranch T)
    (ctr : Nat) (tc : TaggedChange T) (kind : CommitKind) (r : Nat)
    (hdisp : br.disposed = false) (hrev : tc.revision = some r) :
    SharedTreeBranch.apply br ctr tc kind =
      ⟨⟨mintCommit br.head ⟨r, tc.change⟩, false⟩, ctr,
        [.emitBefore (.append kind tc [mintCommit br.head ⟨r, tc.change⟩]),
          .setHead (mintCommit br.head ⟨r, tc.change⟩),
          .emitAfter (.append kind tc [mintCommit br.head ⟨r, tc.change⟩])],
        .ok (tc.change, mintCommit br.head ⟨r, tc.change⟩)⟩ := by
  unfold SharedTreeBranch.apply
  simp [hdisp, hrev]

/-- Witness for C5 at a concrete branch and change. -/
theorem claim_C5_apply_appends_one_commit_witness :
    SharedTreeBranch.apply ⟨g1, false⟩ 9 (tagChange [7] 5) CommitKind.Default =
      ⟨⟨mintCommit g1 ⟨5, [7]⟩, false⟩, 9,
        [.emitBefore (.append CommitKind.Default (tagChange [7] 5) [mintCommit g1 ⟨5, [7]⟩]),
          .setHead (mintCommit g1 ⟨5, [7]⟩),
          .emitAfter (.append CommitKind.Default (tagChange [7] 5) [mintCommit g1 ⟨5, [7]⟩])],
        .ok ([7], mintCommit g1 ⟨5, [7]⟩)⟩ :=
  claim_C5_apply_appends_one_commit ⟨g1, false⟩ 9 (tagChange [7] 5) CommitKind.Default 5 rfl rfl

/-- Claim C7 (code bug evidence): `SharedTreeBranch.rollback` performs no
`assertNotDisposed` check — on a disposed branch it still succeeds,
emitting change events and mutating the head, contradicting the dispose
contract ("attempts to further mutate the branch will error").  Evaluated
at a disposed branch whose head chain is c1 ← c0, rolling back to the root
revision 0: the call returns the removed commit, fires events, and moves
the head. -/
theorem claim_C7_rollback_ignores_disposed :
    (SharedTreeBranch.rollback famL ⟨g1, true⟩ 50 0).result = .ok [g1] ∧
    (SharedTreeBranch.rollback famL ⟨g1, true⟩ 50 0).branch = ⟨g0, true⟩ ∧
    (SharedTreeBranch.rollback famL ⟨g1, true⟩ 50 0).trace ≠ [] := by
  decide

/-- Claim C6: every head-mutating branch operation (`apply`, `rollback`,
`rebaseOnto`, `merge`) obeys the event/mutation discipline: when it
mutates, the trace is exactly `beforeChange`, the head assignment, then
`afterChange`, both events carrying the same change description; when it
throws (in particular when change composition throws), the branch is left
unmutated with no events emitted; the no-op paths emit nothing and leave
the head unchanged. -/
theorem claim_C6_event_timing_and_atomicity {T : Type} [DecidableEq T]
    (fam : ChangeFamily T) (br other target : SharedTreeBranch T) (ctr : Nat)
    (tc : TaggedChange T) (kind : CommitKind) (rev : Nat) (upTo : GraphCommit T) :
    atomicOutcome br (SharedTreeBranch.apply br ctr tc kind) ∧
    atomicOutcome br (SharedTreeBranch.rollback fam br ctr rev) ∧
    atomicOutcome br (SharedTreeBranch.rebaseOnto fam br target ctr upTo) ∧
    atomicOutcome br (SharedTreeBranch.merge fam br other ctr) := by
  refine ⟨?_, ?_, ?_, ?_⟩
  · unfold SharedTreeBranch.apply
    cases hd : br.disposed <;> simp [atomicOutcome, hd]
    cases hr : tc.revision <;> simp [atomicOutcome]
  · unfold SharedTreeBranch.rollback
    cases hw : rollbackWalkChain fam rev br.head.chain ctr with
    | mk ctr' rest =>
      obtain ⟨invs, removed, res⟩ := rest
      cases res with
      | none => simp [atomicOutcome]
      | some newHead =>
        simp only []
        split <;> simp [atomicOutcome]
  · unfold SharedTreeBranch.rebaseOnto
    cases hd : br.disposed <;> simp [atomicOutcome, hd]
    cases hr : SharedTreeBranch.rebaseBranchPriv fam ctr br.head br.head upTo target.head with
    | error e => simp [atomicOutcome]
    | ok pr =>
      obtain ⟨res?, ctr'⟩ := pr
      cases res? <;> simp [atomicOutcome]
  · unfold SharedTreeBranch.merge
    cases hd : br.disposed <;> simp [atomicOutcome, hd]
    cases ho : other.disposed <;> simp [atomicOutcome, ho]
    by_cases he : other = br
    · simp [atomicOutcome, he]
    · simp only [he, if_false]
      cases hr : SharedTreeBranch.rebaseBranchPriv fam ctr br.head other.head br.head br.head with
      | error e => simp [atomicOutcome]
      | ok pr =>
        obtain ⟨res?, ctr'⟩ := pr
        cases res? with
        | none => simp [atomicOutcome]
        | some res =>
          cases hc : fam.compose (res.sourceCommits.map commitTagged) <;>
            simp [atomicOutcome, hc]

/-- The rollback walk over a chain that contains the target: it mints one
revision per visited commit (the match included), collects their rollback
inverses in visit order, collects the removed commits (match excluded)
oldest first, and returns the target commit. -/
theorem rollbackWalkChain_found {T : Type} (fam : ChangeFamily T) (target : Nat)
    (pre : List (Commit T)) (g : GraphCommit T) :
    ∀ ctr : Nat, (∀ c ∈ pre, c.revision ≠ target) → g.top.revision = target →
    rollbackWalkChain fam target (pre ++ g.chain) ctr =
      (ctr + pre.length + 1,
        chainInverses fam (pre ++ g.chain) ctr (pre.length + 1),
        takeGraphCommits pre.length (pre ++ g.chain), some g) := by
  induction pre with
  | nil =>
    intro ctr _ hg
    cases g with
    | mk top anc =>
      simp only [GraphCommit.chain] at hg ⊢
      simp [rollbackWalkChain, chainInverses, takeGraphCommits, hg]
  | cons p pre' ih =>
    intro ctr hpre hg
    have hp : p.revision ≠ target := hpre p (List.mem_cons_self p pre')
    have hrest : ∀ c ∈ pre', c.revision ≠ target := fun c hc =>
      hpre c (List.mem_cons_of_mem p hc)
    simp only [List.cons_append, rollbackWalkChain, chainInverses, takeGraphCommits,
      List.length_cons, if_neg hp, List.append_eq, ih (ctr + 1) hrest hg, Prod.mk.injEq]
    exact ⟨by omega, trivial⟩

/-- The rollback walk over a chain that does not contain the target: it
mints one revision per commit of the chain and finds nothing. -/
theorem rollbackWalkChain_missing {T : Type} (fam : ChangeFamily T) (target : Nat)
    (chain : List (Commit T)) :
    ∀ ctr : Nat, (∀ c ∈ chain, c.revision ≠ target) →
    rollbackWalkChain fam target chain ctr =
      (ctr + chain.length, chainInverses fam chain ctr chain.length,
        takeGraphCommits chain.length chain, none) := by
  induction chain with
  | nil => intro ctr _; simp [rollbackWalkChain, chainInverses, takeGraphCommits]
  | cons c rest ih =>
    intro ctr h
    have hc : c.revision ≠ target := h c (List.mem_cons_self c rest)
    have hrest : ∀ d ∈ rest, d.revision ≠ target := fun d hd =>
      h d (List.mem_cons_of_mem c hd)
    simp only [rollbackWalkChain, chainInverses, takeGraphCommits, List.length_cons,
      if_neg hc, List.append_eq, ih (ctr + 1) hrest, Prod.mk.injEq]
    exact ⟨by omega, trivial⟩

/-- Splitting the visit-order inverse list at the match: the inverses of
the first `pre.length + 1` commits are those of the removed prefix plus
one extra inverse of the matched commit itself, tagged with the last
minted revision. -/
theorem chainInverses_snoc {T : Type} (fam : ChangeFamily T)
    (pre : List (Commit T)) (g : GraphCommit T) :
    ∀ ctr : Nat,
    chainInverses fam (pre ++ g.chain) ctr (pre.length + 1) =
      chainInverses fam (pre ++ g.chain) ctr pre.length ++
        [tagRollbackInverse
          (fam.changeRevision (fam.invert g true (ctr + pre.length)) (ctr + pre.length)
            (some g.top.revision))
          (ctr + pre.length) g.top.revision] := by
  induction pre with
  | nil =>
    intro ctr
    cases g with
    | mk top anc => simp [GraphCommit.chain, chainInverses]
  | cons p pre' ih =>
    intro ctr
    simp only [List.cons_append, chainInverses, List.length_cons, List.append_eq,
      ih (ctr + 1)]
    rw [show ctr + 1 + pre'.length = ctr + (pre'.length + 1) from by omega]

/-- The removed-commit list of a walk over `pre ++ rest` has exactly one
entry per commit of `pre`. -/
theorem takeGraphCommits_length {T : Type} (pre rest : List (Commit T)) :
    (takeGraphCommits pre.length (pre ++ rest)).length = pre.length := by
  induction pre generalizing rest with
  | nil => simp [takeGraphCommits]
  | cons p pre' ih => simp [takeGraphCommits, List.length_append, ih]

/-- The inverse list collected by a successful rollback walk is never
empty (the matched commit always contributes one inverse). -/
theorem chainInverses_cons_ne_nil {T : Type} (fam : ChangeFamily T)
    (c : Commit T) (rest : List (Commit T)) (ctr n : Nat) :
    chainInverses fam (c :: rest) ctr (n + 1) ≠ [] := by
  simp [chainInverses]

/-- Outcome of a successful rollback, phrased over the decomposition of
the head chain at the target commit. -/
theorem rollback_found_outcome {T : Type} (fam : ChangeFamily T)
    (br : SharedTreeBranch T) (ctr target : Nat)
    (pre : List (Commit T)) (g : GraphCommit T) (ch : T)
    (hchain : br.head.chain = pre ++ g.chain)
    (hpre : ∀ c ∈ pre, c.revision ≠ target)
    (hg : g.top.revision = target)
    (hcomp : fam.compose (chainInverses fam br.head.chain ctr (pre.length + 1)) = some ch) :
    SharedTreeBranch.rollback fam br ctr target =
      ⟨⟨g, br.disposed⟩, ctr + pre.length + 1,
        [.emitBefore (.rollbackEvent (some (makeAnonChange ch))
            (takeGraphCommits pre.length br.head.chain)),
          .setHead g,
          .emitAfter (.rollbackEvent (some (makeAnonChange ch))
            (takeGraphCommits pre.length br.head.chain))],
        .ok (takeGraphCommits pre.length br.head.chain)⟩ := by
  unfold SharedTreeBranch.rollback
  rw [hchain, rollbackWalkChain_found fam target pre g ctr hpre hg]
  have hne : chainInverses fam (pre ++ g.chain) ctr (pre.length + 1) ≠ [] := by
    cases pre with
    | nil =>
      cases g with
      | mk top anc =>
        simpa [GraphCommit.chain] using chainInverses_cons_ne_nil fam top anc ctr 0
    | cons p pre' =>
      simpa [List.cons_append] using
        chainInverses_cons_ne_nil fam p (pre' ++ g.chain) ctr (pre'.length + 1)
  have hlen : (chainInverses fam (pre ++ g.chain) ctr (pre.length + 1)).length > 0 :=
    List.length_pos.mpr hne
  rw [hchain] at hcomp
  simp [hlen, hcomp]

/-- Claim C3: for every call `branch.rollback(targetRevision)`: if no
commit with that revision exists in the ancestry of the head, the call
fails; otherwise the branch computes the inverse of each visited commit
(each tagged with a freshly minted revision and marked as a rollback
inverse referencing the commit it undoes — the `chainInverses` list),
composes them, installs the target commit as the new head (the head state
that results from applying the composed inverse), emits rollback-typed
`beforeChange`/`afterChange` events carrying the composed inverse, and
returns the removed (rolled-back) commits. -/
theorem claim_C3_rollback_contract {T : Type} (fam : ChangeFamily T)
    (br : SharedTreeBranch T) (ctr target : Nat) :
    ((∀ c ∈ br.head.chain, c.revision ≠ target) →
      SharedTreeBranch.rollback fam br ctr target =
        ⟨br, ctr + br.head.chain.length, [],
          .error "Rollback failed: no such revision on branch"⟩) ∧
    (∀ (pre : List (Commit T)) (g : GraphCommit T) (ch : T),
      br.head.chain = pre ++ g.chain →
      (∀ c ∈ pre, c.revision ≠ target) →
      g.top.revision = target →
      fam.compose (chainInverses fam br.head.chain ctr (pre.length + 1)) = some ch →
      SharedTreeBranch.rollback fam br ctr target =
        ⟨⟨g, br.disposed⟩, ctr + pre.length + 1,
          [.emitBefore (.rollbackEvent (some (makeAnonChange ch))
              (takeGraphCommits pre.length br.head.chain)),
            .setHead g,
            .emitAfter (.rollbackEvent (some (makeAnonChange ch))
              (takeGraphCommits pre.length br.head.chain))],
          .ok (takeGraphCommits pre.length br.head.chain)⟩) := by
  constructor
  · intro h
    unfold SharedTreeBranch.rollback
    rw [rollbackWalkChain_missing fam target br.head.chain ctr h]
  · intro pre g ch hchain hpre hg hcomp
    exact rollback_found_outcome fam br ctr target pre g ch hchain hpre hg hcomp

/-- Witness for C3 at a concrete branch: rolling the chain
c2 ← c1 ← c0 back to revision 0 removes c1 and c2 and installs the root. -/
theorem claim_C3_rollback_contract_witness :
    SharedTreeBranch.rollback famL ⟨g2, false⟩ 100 0 =
      ⟨⟨g0, false⟩, 100 + 2 + 1,
        [.emitBefore (.rollbackEvent (some (makeAnonChange [-12, -11, -10]))
            (takeGraphCommits 2 (⟨g2, false⟩ : SharedTreeBranch (List Int)).head.chain)),
          .setHead g0,
          .emitAfter (.rollbackEvent (some (makeAnonChange [-12, -11, -10]))
            (takeGraphCommits 2 (⟨g2, false⟩ : SharedTreeBranch (List Int)).head.chain))],
        .ok (takeGraphCommits 2 (⟨g2, false⟩ : SharedTreeBranch (List Int)).head.chain)⟩ :=
  (claim_C3_rollback_contract famL ⟨g2, false⟩ 100 0).2 [c2, c1] g0 [-12, -11, -10]
    (by decide) (by decide) (by decide) (by decide)

/-- Claim C9: in every successful `rollback(targetRevision)`, the change
carried by the emitted rollback events is the composition of
freshly-tagged rollback inverses of every commit visited by the walk
*including* the commit with `targetRevision` itself — the composed list is
the inverses of the removed prefix plus one extra inverse of the target
commit, tagged with its own freshly minted revision — even though the
returned removed-commit list has exactly one entry per removed commit and
excludes the target commit. -/
theorem claim_C9_rollback_event_inverts_target_commit {T : Type} (fam : ChangeFamily T)
    (br : SharedTreeBranch T) (ctr target : Nat)
    (pre : List (Commit T)) (g : GraphCommit T) (ch : T)
    (hchain : br.head.chain = pre ++ g.chain)
    (hpre : ∀ c ∈ pre, c.revision ≠ target)
    (hg : g.top.revision = target)
    (hcomp : fam.compose (chainInverses fam br.head.chain ctr (pre.length + 1)) = some ch) :
    ((SharedTreeBranch.rollback fam br ctr target).result =
        .ok (takeGraphCommits pre.length br.head.chain)) ∧
    (takeGraphCommits pre.length br.head.chain).length = pre.length ∧
    ((SharedTreeBranch.rollback fam br ctr target).trace =
      [.emitBefore (.rollbackEvent (some (makeAnonChange ch))
          (takeGraphCommits pre.length br.head.chain)),
        .setHead g,
        .emitAfter (.rollbackEvent (some (makeAnonChange ch))
          (takeGraphCommits pre.length br.head.chain))]) ∧
    chainInverses fam br.head.chain ctr (pre.length + 1) =
      chainInverses fam br.head.chain ctr pre.length ++
        [tagRollbackInverse
          (fam.changeRevision (fam.invert g true (ctr + pre.length)) (ctr + pre.length)
            (some g.top.revision))
          (ctr + pre.length) g.top.revision] := by
  have hred := rollback_found_outcome fam br ctr target pre g ch hchain hpre hg hcomp
  refine ⟨by rw [hred], ?_, by rw [hred], ?_⟩
  · rw [hchain]
    exact takeGraphCommits_length pre g.chain
  · rw [hchain]
    exact chainInverses_snoc fam pre g ctr

/-- Witness for C9 at a concrete branch: rolling c2 ← c1 ← c0 back to
revision 0 returns two removed commits while the event composes three
inverses, the third being the fresh-tagged inverse of the root commit. -/
theorem claim_C9_rollback_event_inverts_target_commit_witness :
    ((SharedTreeBranch.rollback famL ⟨g2, false⟩ 200 0).result =
        .ok (takeGraphCommits 2 (⟨g2, false⟩ : SharedTreeBranch (List Int)).head.chain)) ∧
    (takeGraphCommits 2 (⟨g2, false⟩ : SharedTreeBranch (List Int)).head.chain).length = 2 ∧
    ((SharedTreeBranch.rollback famL ⟨g2, false⟩ 200 0).trace =
      [.emitBefore (.rollbackEvent (some (makeAnonChange [-12, -11, -10]))
          (takeGraphCommits 2 (⟨g2, false⟩ : SharedTreeBranch (List Int)).head.chain)),
        .setHead g0,
        .emitAfter (.rollbackEvent (some (makeAnonChange [-12, -11, -10]))
          (takeGraphCommits 2 (⟨g2, false⟩ : SharedTreeBranch (List Int)).head.chain))]) ∧
    chainInverses famL (⟨g2, false⟩ : SharedTreeBranch (List Int)).head.chain 200 3 =
      chainInverses famL (⟨g2, false⟩ : SharedTreeBranch (List Int)).head.chain 200 2 ++
        [tagRollbackInverse
          (famL.changeRevision (famL.invert g0 true 202) 202 (some g0.top.revision))
          202 g0.top.revision] :=
  claim_C9_rollback_event_inverts_target_commit famL ⟨g2, false⟩ 200 0 [c2, c1] g0
    [-12, -11, -10] (by decide) (by decide) (by decide) (by decide)

/-- A shared head segment factors out of `commonStem`. -/
theorem commonStem_append {α : Type} [DecidableEq α] (l x y : List α) :
    commonStem (l ++ x) (l ++ y) = l ++ commonStem x y := by
  induction l with
  | nil => rfl
  | cons a l' ih => simp [commonStem, ih]

/-- The shared ancestry of the chains b1 ← common and a2 ← a1 ← common is
exactly `common` when the first divergent commits differ. -/
theorem commonSuffix_diverge {α : Type} [DecidableEq α] (cc : List α) (b a2 a1 : α)
    (h : b ≠ a1) :
    commonSuffix (b :: cc) (a2 :: a1 :: cc) = cc := by
  unfold commonSuffix
  have h1 : (b :: cc).reverse = cc.reverse ++ [b] := by simp
  have h2 : (a2 :: a1 :: cc).reverse = cc.reverse ++ [a1, a2] := by simp
  rw [h1, h2, commonStem_append]
  simp [commonStem, h]

/-- Claim C4, counterexample: with common ancestor c0, local commits
c1, c2 on branch A (head chain c2 ← c1 ← c0) and commit c3 on branch B
(head chain c3 ← c0), `A.merge(B)` produces a head whose ancestry read
oldest first carries the revisions [0, 1, 2, 3] — A's local commits stay
in place and the rebased form of B's commit is appended on top — and not
[0, 3, 1, 2], the shape the claim requires (merged-in commit inserted
under rebased local commits). -/
theorem claim_C4_counterexample :
    ((SharedTreeBranch.merge famL ⟨g2, false⟩ ⟨g3, false⟩ 10).branch.head.chain.reverse.map
        (fun c => c.revision)) = [0, 1, 2, 3] ∧
    ((SharedTreeBranch.merge famL ⟨g2, false⟩ ⟨g3, false⟩ 10).branch.head.chain.reverse.map
        (fun c => c.revision)) ≠ [0, 3, 1, 2] ∧
    (SharedTreeBranch.merge famL ⟨g2, false⟩ ⟨g3, false⟩ 10).result =
      .ok (some ([13], [⟨⟨3, [13]⟩, [c2, c1, c0]⟩])) := by
  decide

/-- Claim C4, amended: given branch A with local commits a1, a2 above the
common ancestor and branch B forked from the common ancestor with commit
b1, `A.merge(B)` yields a head of A whose ancestry, read oldest first, is
[..common, a1, a2, b1'] where b1' is the rebased form of B's commit (same
revision, change rebased over a1 then a2) — i.e. the merged-in (remote)
commit is appended on top of the local ones, which keep their places. -/
theorem claim_C4_merge_appends_rebased_remote_on_top {T : Type} [DecidableEq T]
    (fam : ChangeFamily T) (common : GraphCommit T) (a1 a2 b1 : Commit T) (ctr : Nat)
    (hb : b1 ≠ a1)
    (hempty : fam.isEmpty
      (fam.rebase (fam.rebase b1.change (commitTagged ⟨a1, common.chain⟩))
        (commitTagged ⟨a2, a1 :: common.chain⟩)) = false)
    (hcomp : ∀ l, (fam.compose l).isSome) :
    (SharedTreeBranch.merge fam ⟨⟨a2, a1 :: common.chain⟩, false⟩ ⟨⟨b1, common.chain⟩, false⟩
        ctr).branch.head =
      ⟨⟨b1.revision,
          fam.rebase (fam.rebase b1.change (commitTagged ⟨a1, common.chain⟩))
            (commitTagged ⟨a2, a1 :: common.chain⟩)⟩,
        a2 :: a1 :: common.chain⟩ ∧
    (SharedTreeBranch.merge fam ⟨⟨a2, a1 :: common.chain⟩, false⟩ ⟨⟨b1, common.chain⟩, false⟩
        ctr).result.isOk = true := by
  set cc := common.chain with hcc
  set r := fam.rebase (fam.rebase b1.change (commitTagged ⟨a1, cc⟩))
    (commitTagged ⟨a2, a1 :: cc⟩) with hr
  have hccfalse : cc.isEmpty = false := by
    rw [hcc]
    cases common with
    | mk top anc => simp [GraphCommit.chain]
  have hheads : (⟨b1, cc⟩ : GraphCommit T) ≠ ⟨a2, a1 :: cc⟩ := by
    intro h
    have := congrArg (fun g => g.ancestors.length) h
    simp at this
  have hne2 : (⟨a2, a1 :: cc⟩ : GraphCommit T) ≠ ⟨⟨b1.revision, r⟩, a2 :: a1 :: cc⟩ := by
    intro h
    have := congrArg (fun g => g.ancestors.length) h
    simp at this
  have hanc : commonSuffix (b1 :: cc) (a2 :: a1 :: cc) = cc :=
    commonSuffix_diverge cc b1 a2 a1 hb
  have hlen1 : (b1 :: cc).length - cc.length = 1 := by
    simp
  have hlen2 : (a2 :: a1 :: cc).length - cc.length = 2 := by
    simp only [List.length_cons]
    omega
  have hsrc : takeGraphCommits (T := T) 1 (b1 :: cc) = [⟨b1, cc⟩] := by
    simp [takeGraphCommits]
  have htgt : takeGraphCommits (T := T) 2 (a2 :: a1 :: cc) =
      [⟨a1, cc⟩, ⟨a2, a1 :: cc⟩] := by
    simp [takeGraphCommits]
  obtain ⟨net, hnet⟩ := Option.isSome_iff_exists.mp (hcomp
    (tagRollbackInverse (fam.invert ⟨b1, cc⟩ true ctr) ctr b1.revision ::
      commitTagged (⟨a1, cc⟩ : GraphCommit T) ::
      commitTagged (⟨a2, a1 :: cc⟩ : GraphCommit T) ::
      [commitTagged (⟨⟨b1.revision, r⟩, a2 :: a1 :: cc⟩ : GraphCommit T)]))
  have hcore : rebaseBranchCore fam ctr ⟨b1, cc⟩ ⟨a2, a1 :: cc⟩ ⟨a2, a1 :: cc⟩ =
      .ok (⟨⟨⟨b1.revision, r⟩, a2 :: a1 :: cc⟩, some net, [],
        [⟨a1, cc⟩, ⟨a2, a1 :: cc⟩], [⟨⟨b1.revision, r⟩, a2 :: a1 :: cc⟩]⟩, ctr + 1) := by
    unfold rebaseBranchCore
    simp only [hanc, hccfalse, Bool.false_eq_true, if_false, hlen1, hlen2, hsrc, htgt,
      rebuildSourceCommits, rebaseOverAll, List.foldl_cons, List.foldl_nil, ← hr, hempty,
      mintCommit, GraphCommit.chain, rollbackInversesOf, List.cons_append, List.nil_append,
      List.map_cons, List.map_nil]
    rw [hnet]
  have hpriv : SharedTreeBranch.rebaseBranchPriv fam ctr
      (⟨a2, a1 :: cc⟩ : GraphCommit T) ⟨b1, cc⟩ ⟨a2, a1 :: cc⟩ ⟨a2, a1 :: cc⟩ =
      .ok (some ⟨⟨⟨b1.revision, r⟩, a2 :: a1 :: cc⟩, some net, [],
        [⟨a1, cc⟩, ⟨a2, a1 :: cc⟩], [⟨⟨b1.revision, r⟩, a2 :: a1 :: cc⟩]⟩, ctr + 1) := by
    unfold SharedTreeBranch.rebaseBranchPriv
    rw [if_neg hheads, hcore]
    simp only [if_neg hne2]
  have hbrne : (⟨⟨b1, cc⟩, false⟩ : SharedTreeBranch T) ≠ ⟨⟨a2, a1 :: cc⟩, false⟩ := by
    intro h
    exact hheads (congrArg SharedTreeBranch.head h)
  obtain ⟨chg, hchg⟩ := Option.isSome_iff_exists.mp (hcomp
    [commitTagged (⟨⟨b1.revision, r⟩, a2 :: a1 :: cc⟩ : GraphCommit T)])
  have hmerge : SharedTreeBranch.merge fam ⟨⟨a2, a1 :: cc⟩, false⟩ ⟨⟨b1, cc⟩, false⟩ ctr =
      ⟨⟨⟨⟨b1.revision, r⟩, a2 :: a1 :: cc⟩, false⟩, ctr + 1,
        [.emitBefore (.append .Default (makeAnonChange chg)
            [⟨⟨b1.revision, r⟩, a2 :: a1 :: cc⟩]),
          .setHead ⟨⟨b1.revision, r⟩, a2 :: a1 :: cc⟩,
          .emitAfter (.append .Default (makeAnonChange chg)
            [⟨⟨b1.revision, r⟩, a2 :: a1 :: cc⟩])],
        .ok (some (chg, [⟨⟨b1.revision, r⟩, a2 :: a1 :: cc⟩]))⟩ := by
    unfold SharedTreeBranch.merge
    rw [if_neg hbrne]
    simp only [hpriv, List.map_cons, List.map_nil]
    rw [hchg]
    simp
  rw [hmerge]
  exact ⟨rfl, rfl⟩

/-- Witness for the amended C4 at the concrete scenario: A holds c1, c2
over the root, B holds c3 over the root; the merge appends the rebased c3
on top of c1, c2. -/
theorem claim_C4_merge_appends_rebased_remote_on_top_witness :
    (SharedTreeBranch.merge famL ⟨⟨c2, c1 :: g0.chain⟩, false⟩ ⟨⟨c3, g0.chain⟩, false⟩
        10).branch.head =
      ⟨⟨c3.revision,
          famL.rebase (famL.rebase c3.change (commitTagged ⟨c1, g0.chain⟩))
            (commitTagged ⟨c2, c1 :: g0.chain⟩)⟩,
        c2 :: c1 :: g0.chain⟩ ∧
    (SharedTreeBranch.merge famL ⟨⟨c2, c1 :: g0.chain⟩, false⟩ ⟨⟨c3, g0.chain⟩, false⟩
        10).result.isOk = true :=
  claim_C4_merge_appends_rebased_remote_on_top famL g0 c1 c2 c3 10 (by decide) (by decide)
    (fun _ => rfl)

/-- Removing a key from a revision map makes lookups of that key fail. -/
theorem lookupRev_removeRev_self {T : Type} (l : List (Nat × T)) (r : Nat) :
    lookupRev (removeRev l r) r = none := by
  induction l with
  | nil => rfl
  | cons p rest ih =>
    obtain ⟨k, v⟩ := p
    by_cases hk : k = r
    · simp [removeRev, hk, ih]
    · simp [removeRev, lookupRev, hk, ih]

/-- After `disposeRevertible` the handle's status is `Disposed`. -/
theorem revertibleStatus_disposeRevertible {T : Type} (cs : TreeCheckout T) (rev : Nat) :
    (cs.disposeRevertible rev).revertibleStatus rev = RevertibleStatus.Disposed := by
  unfold TreeCheckout.revertibleStatus TreeCheckout.disposeRevertible
  simp [lookupRev_removeRev_self]

/-- Claim C8: for every revertible handle: once `revert()` (with its
default `release = true`) has succeeded, a second `revert()` on the same
handle throws the disposed-revertible usage error, and so does a
`dispose()`; likewise, after a successful `dispose()` any second
`dispose()` throws the already-disposed usage error. -/
theorem claim_C8_revertible_exactly_once {T : Type} [DecidableEq T] (fam : ChangeFamily T)
    (cs : TreeCheckout T) (rev : Nat) (kind : CommitKind) :
    (∀ cs' tr, TreeCheckout.revertibleRevert fam cs rev kind true = ⟨cs', tr, .ok ()⟩ →
      (TreeCheckout.revertibleRevert fam cs' rev kind true).result =
          .error "Unable to revert a revertible that has been disposed." ∧
        cs'.revertibleDispose rev =
          .error "Unable to dispose a revertible that has already been disposed.") ∧
    (∀ cs2, cs.revertibleDispose rev = .ok cs2 →
      cs2.revertibleDispose rev =
        .error "Unable to dispose a revertible that has already been disposed.") := by
  constructor
  · intro cs' tr hrv
    unfold TreeCheckout.revertibleRevert at hrv
    by_cases hst : cs.revertibleStatus rev = RevertibleStatus.Disposed
    · rw [if_pos hst] at hrv
      exact absurd (congrArg CheckoutOutcome.result hrv) (by simp)
    · rw [if_neg hst] at hrv
      rcases ho : cs.revertRevertible fam rev kind with ⟨csr, trr, res⟩
      rw [ho] at hrv
      cases res with
      | error e => simp at hrv
      | ok u =>
        simp only [if_pos rfl] at hrv
        cases hd : csr.revertibleDispose rev with
        | error e =>
          rw [hd] at hrv
          simp at hrv
        | ok csd =>
          rw [hd] at hrv
          have hcs' : cs' = csd := (congrArg CheckoutOutcome.checkout hrv).symm
          unfold TreeCheckout.revertibleDispose at hd
          by_cases hstd : csr.revertibleStatus rev = RevertibleStatus.Disposed
          · rw [if_pos hstd] at hd
            exact absurd hd (by simp)
          · rw [if_neg hstd] at hd
            have hcsd : csd = csr.disposeRevertible rev := by
              cases hd
              rfl
            have hdisp : cs'.revertibleStatus rev = RevertibleStatus.Disposed := by
              rw [hcs', hcsd]
              exact revertibleStatus_disposeRevertible _ rev
            constructor
            · unfold TreeCheckout.revertibleRevert
              rw [if_pos hdisp]
            · unfold TreeCheckout.revertibleDispose
              rw [if_pos hdisp]
  · intro cs2 hd
    unfold TreeCheckout.revertibleDispose at hd
    by_cases hst : cs.revertibleStatus rev = RevertibleStatus.Disposed
    · rw [if_pos hst] at hd
      exact absurd hd (by simp)
    · rw [if_neg hst] at hd
      have hcs2 : cs2 = cs.disposeRevertible rev := by
        cases hd
        rfl
      have hdisp : cs2.revertibleStatus rev = RevertibleStatus.Disposed := by
        rw [hcs2]
        exact revertibleStatus_disposeRevertible cs rev
      unfold TreeCheckout.revertibleDispose
      rw [if_pos hdisp]

/-- Checkout used by the revertible witness: a live branch at c1 ← c0 with
one valid revertible handle registered for revision 1. -/
def cs8 : TreeCheckout (List Int) :=
  ⟨⟨g1, false⟩, false, [], [], 0, [(1, g1)], [1], 0, 20⟩

/-- Witness for C8: on `cs8` the first `revert()` succeeds, after which a
second `revert()` and a `dispose()` both throw the usage errors. -/
theorem claim_C8_revertible_exactly_once_witness :
    (TreeCheckout.revertibleRevert famL
        (TreeCheckout.revertibleRevert famL cs8 1 CommitKind.Default true).checkout
        1 CommitKind.Default true).result =
      .error "Unable to revert a revertible that has been disposed." ∧
    (TreeCheckout.revertibleRevert famL cs8 1 CommitKind.Default
          true).checkout.revertibleDispose 1 =
      .error "Unable to dispose a revertible that has already been disposed." :=
  (claim_C8_revertible_exactly_once famL cs8 1 CommitKind.Default).1
    (TreeCheckout.revertibleRevert famL cs8 1 CommitKind.Default true).checkout
    (TreeCheckout.revertibleRevert famL cs8 1 CommitKind.Default true).trace
    (by decide)

/-- Checkout used by the dispose evidence: a live branch at c1 ← c0, one
transaction in progress (start revision 1), one view. -/
def cs10 : TreeCheckout (List Int) :=
  ⟨⟨g1, false⟩, false, [1], [], 1, [], [], 1, 30⟩

/-- Claim C10 (code bug evidence): `TreeCheckout`'s dispose sets the
disposed flag *before* its abort loop, but `abortTransaction` begins with
`checkNotDisposed()`, so disposing a checkout with a transaction in
progress hits the 0x911 assert instead of aborting the transaction: no
transaction is aborted, and neither the revertibles, the branch, nor the
views are disposed.  The claim's second half — a second dispose throws a
usage error — is the behaviour at an already-disposed checkout, shown in
the last conjunct. -/
theorem claim_C10_dispose_asserts_when_transacting :
    (TreeCheckout.dispose famL cs10).result =
        .error "0x911: Invalid operation on a disposed TreeCheckout" ∧
    (TreeCheckout.dispose famL cs10).checkout.transactions = [1] ∧
    (TreeCheckout.dispose famL cs10).checkout.branch.disposed = false ∧
    (TreeCheckout.dispose famL cs10).checkout.views = 1 ∧
    (TreeCheckout.dispose famL ⟨⟨g1, false⟩, true, [1], [], 1, [], [], 1, 30⟩).result =
      .error "The branch has already been disposed and cannot be disposed again." := by
  decide

/-- Applying a list of changes with freshly minted revisions to a live
branch appends one commit per change (newest first on the chain), leaves
the branch live, and advances the mint counter once per change. -/
theorem applyChanges_spec {T : Type} (chs : List T) :
    ∀ (br : SharedTreeBranch T) (ctr : Nat), br.disposed = false →
      (applyChanges br ctr chs).1.head.chain =
          (mintedCommits chs ctr).reverse ++ br.head.chain ∧
        (applyChanges br ctr chs).1.disposed = false ∧
        (applyChanges br ctr chs).2 = ctr + chs.length := by
  induction chs with
  | nil => intro br ctr h; simp [applyChanges, mintedCommits, h]
  | cons ch rest ih =>
    intro br ctr h
    have happ : SharedTreeBranch.apply br ctr (tagChange ch ctr) CommitKind.Default =
        ⟨⟨mintCommit br.head ⟨ctr, ch⟩, false⟩, ctr,
          [.emitBefore (.append CommitKind.Default (tagChange ch ctr)
              [mintCommit br.head ⟨ctr, ch⟩]),
            .setHead (mintCommit br.head ⟨ctr, ch⟩),
            .emitAfter (.append CommitKind.Default (tagChange ch ctr)
              [mintCommit br.head ⟨ctr, ch⟩])],
          .ok (ch, mintCommit br.head ⟨ctr, ch⟩)⟩ := by
      unfold SharedTreeBranch.apply
      simp [h, tagChange]
    have := ih ⟨mintCommit br.head ⟨ctr, ch⟩, false⟩ (ctr + 1) rfl
    unfold applyChanges
    rw [happ]
    refine ⟨?_, this.2.1, ?_⟩
    · rw [this.1]
      simp [mintedCommits, mintCommit, GraphCommit.chain]
    · rw [this.2.2]
      simp [List.length_cons]
      omega

/-- The ancestry walk by revision over a chain decomposed at the matching
commit: it returns the matching commit and the path of the visited
commits, oldest first. -/
theorem findInChainPath_revision_found {T : Type} (r : Nat) (pre : List (Commit T))
    (g : GraphCommit T) (hpre : ∀ c ∈ pre, c.revision ≠ r) (hg : g.top.revision = r) :
    findInChainPath (fun c => c.top.revision = r) (pre ++ g.chain) =
      some (g, takeGraphCommits pre.length (pre ++ g.chain)) := by
  induction pre with
  | nil =>
    cases g with
    | mk top anc =>
      simp only [GraphCommit.chain] at hg ⊢
      simp [findInChainPath, takeGraphCommits, hg]
  | cons p pre' ih =>
    have hp : p.revision ≠ r := hpre p (List.mem_cons_self p pre')
    have hrest : ∀ c ∈ pre', c.revision ≠ r := fun c hc => hpre c (List.mem_cons_of_mem p hc)
    simp only [List.cons_append, findInChainPath, List.length_cons, takeGraphCommits,
      List.append_eq, ih hrest]
    simp [hp]

/-- One minted commit per change. -/
theorem mintedCommits_length {T : Type} (chs : List T) :
    ∀ ctr, (mintedCommits chs ctr).length = chs.length := by
  induction chs with
  | nil => intro ctr; rfl
  | cons ch rest ih => intro ctr; simp [mintedCommits, ih (ctr + 1)]

/-- Minted revisions are at least the starting counter. -/
theorem mintedCommits_revision_ge {T : Type} (chs : List T) :
    ∀ ctr, ∀ c ∈ mintedCommits chs ctr, ctr ≤ c.revision := by
  induction chs with
  | nil => intro ctr c hc; simp [mintedCommits] at hc
  | cons ch rest ih =>
    intro ctr c hc
    simp only [mintedCommits, List.mem_cons] at hc
    rcases hc with rfl | hc
    · exact Nat.le_refl ctr
    · exact Nat.le_trans (Nat.le_succ ctr) (ih (ctr + 1) c hc)

/-- The removed-prefix commits of a walk, viewed as the tagged changes fed
to `compose`, are exactly the prefix commits oldest first. -/
theorem takeGraphCommits_map_tagged {T : Type} (pre rest : List (Commit T)) :
    (takeGraphCommits pre.length (pre ++ rest)).map commitTagged =
      (pre.map (fun c => (⟨some c.revision, none, c.change⟩ : TaggedChange T))).reverse := by
  induction pre generalizing rest with
  | nil => simp [takeGraphCommits]
  | cons p pre' ih =>
    simp [takeGraphCommits, ih rest, commitTagged]

/-- One whole transaction, as the atomicity property quantifies it: begin
with `startTransaction`, apply each change of `chs` through the branch
with freshly minted revisions (exactly the commits made "during the
transaction"), and end with `commitTransaction`.  The outcome carries the
commit's branch events. -/
def runTransactionScenario {T : Type} [DecidableEq T] (fam : ChangeFamily T)
    (cs : TreeCheckout T) (chs : List T) : CheckoutOutcome T Unit :=
  match cs.startTransaction with
  | ⟨cso, tro, .error e⟩ => ⟨cso, tro, .error e⟩
  | ⟨cso, _, .ok _⟩ =>
    let p := applyChanges cso.branch cso.counter chs
    TreeCheckout.commitTransaction fam { cso with branch := p.1, counter := p.2 }

/-- Claim C1: for every transaction begun with `startTransaction` and
ended with `commitTransaction` on a live checkout (no rebase interleaved,
so the rebased-revision map is empty, and the minter fresh with respect to
the ancestry): if n ≥ 1 commits were applied to the branch during the
transaction, then after `commitTransaction` the branch head is exactly one
new commit whose parent is the pre-transaction head commit and whose
change is the Change Family composition of those n commits' changes in
application order; if n = 0, `commitTransaction` performs no squash and
emits no branch change events (the checkout is returned exactly as it
was). -/
theorem claim_C1_transaction_atomicity {T : Type} [DecidableEq T] (fam : ChangeFamily T)
    (cs : TreeCheckout T) (chs : List T)
    (hdisp : cs.disposed = false) (hbdisp : cs.branch.disposed = false)
    (hmap : cs.initialTransactionRevToRebasedRev = [])
    (hfresh : ∀ c ∈ cs.branch.head.chain, c.revision < cs.counter)
    (hcomp : ∀ l, (fam.compose l).isSome) :
    (chs = [] → runTransactionScenario fam cs chs = ⟨cs, [], .ok ()⟩) ∧
    (chs ≠ [] → ∃ sq,
      fam.compose ((mintedCommits chs cs.counter).map
        (fun c => (⟨some c.revision, none, c.change⟩ : TaggedChange T))) = some sq ∧
      (runTransactionScenario fam cs chs).result = .ok () ∧
      (runTransactionScenario fam cs chs).checkout.branch.head =
        ⟨⟨cs.counter + 2 * chs.length + 1, sq⟩, cs.branch.head.chain⟩) := by
  obtain ⟨⟨h0, bd⟩, d, trs, mp, sn, rb, rv, vw, ct⟩ := cs
  simp only at hdisp hbdisp hmap hfresh ⊢
  subst hdisp hbdisp hmap
  -- the transaction start
  have hstart : TreeCheckout.startTransaction ⟨⟨h0, false⟩, false, trs, [], sn, rb, rv, vw, ct⟩ =
      ⟨⟨⟨h0, false⟩, false, h0.top.revision :: trs, [], sn + 1, rb, rv, vw, ct⟩, [],
        .ok ()⟩ := rfl
  -- the edits made during the transaction
  have hap := applyChanges_spec chs ⟨h0, false⟩ ct rfl
  have hlenrev : (mintedCommits chs ct).reverse.length = chs.length := by
    simp [mintedCommits_length]
  have htopmem : h0.top ∈ h0.chain := List.mem_cons_self h0.top h0.ancestors
  have hpre : ∀ c ∈ (mintedCommits chs ct).reverse, c.revision ≠ h0.top.revision := by
    intro c hc
    have hc' : c ∈ mintedCommits chs ct := List.mem_reverse.mp hc
    have h1 : ct ≤ c.revision := mintedCommits_revision_ge chs ct c hc'
    have h2 : h0.top.revision < ct := hfresh h0.top htopmem
    omega
  -- the whole scenario is the commit evaluated after the edits
  have hrun : runTransactionScenario fam ⟨⟨h0, false⟩, false, trs, [], sn, rb, rv, vw, ct⟩ chs =
      TreeCheckout.commitTransaction fam
        ⟨(applyChanges ⟨h0, false⟩ ct chs).1, false, h0.top.revision :: trs, [], sn + 1,
          rb, rv, vw, (applyChanges ⟨h0, false⟩ ct chs).2⟩ := by
    unfold runTransactionScenario
    rw [hstart]
  -- popping the transaction finds the start commit under the new commits
  have hfa : findAncestorPath (applyChanges ⟨h0, false⟩ ct chs).1.head
      (fun c => c.top.revision = h0.top.revision) =
      some (h0, takeGraphCommits chs.length
        ((mintedCommits chs ct).reverse ++ h0.chain)) := by
    unfold findAncestorPath
    rw [hap.1, findInChainPath_revision_found h0.top.revision (mintedCommits chs ct).reverse
      h0 hpre rfl, hlenrev]
  have hpop : TreeCheckout.popTransaction
      ⟨(applyChanges ⟨h0, false⟩ ct chs).1, false, h0.top.revision :: trs, [], sn + 1,
        rb, rv, vw, (applyChanges ⟨h0, false⟩ ct chs).2⟩ =
      .ok (⟨(applyChanges ⟨h0, false⟩ ct chs).1, false, trs, [], sn + 1,
          rb, rv, vw, (applyChanges ⟨h0, false⟩ ct chs).2⟩, h0,
        takeGraphCommits chs.length ((mintedCommits chs ct).reverse ++ h0.chain)) := by
    unfold TreeCheckout.popTransaction
    simp only [chaseRev]
    have hif : ∀ X : TreeCheckout T, X.initialTransactionRevToRebasedRev = [] →
        (if X.isTransacting = true then X
          else { X with initialTransactionRevToRebasedRev := [] }) = X := by
      intro X hX
      cases hb : X.isTransacting
      · simp only [hb, Bool.false_eq_true, if_false]
        rw [← hX]
      · simp [hb]
    rw [hif _ rfl, hfa]
  refine ⟨?_, ?_⟩
  · -- no commits made: commit is a no-op with no events
    rintro rfl
    rw [hrun]
    unfold TreeCheckout.commitTransaction
    rw [show TreeCheckout.checkNotDisposed
        ⟨(applyChanges ⟨h0, false⟩ ct ([] : List T)).1, false, h0.top.revision :: trs, [],
          sn + 1, rb, rv, vw, (applyChanges ⟨h0, false⟩ ct ([] : List T)).2⟩ none =
      .ok () from rfl]
    rw [hpop]
    exact rfl
  · -- at least one commit: rollback then a single squash commit
    intro hne
    obtain ⟨w, hw⟩ := Option.isSome_iff_exists.mp (hcomp
      (chainInverses fam (applyChanges ⟨h0, false⟩ ct chs).1.head.chain
        (applyChanges ⟨h0, false⟩ ct chs).2 ((mintedCommits chs ct).reverse.length + 1)))
    have hroll := rollback_found_outcome fam (applyChanges ⟨h0, false⟩ ct chs).1
      (applyChanges ⟨h0, false⟩ ct chs).2 h0.top.revision (mintedCommits chs ct).reverse
      h0 w hap.1 hpre rfl hw
    obtain ⟨sq, hsq⟩ := Option.isSome_iff_exists.mp (hcomp
      ((mintedCommits chs ct).map
        (fun c => (⟨some c.revision, none, c.change⟩ : TaggedChange T))))
    refine ⟨sq, hsq, ?_⟩
    have hpathmap : (takeGraphCommits chs.length
        ((mintedCommits chs ct).reverse ++ h0.chain)).map commitTagged =
        (mintedCommits chs ct).map
          (fun c => (⟨some c.revision, none, c.change⟩ : TaggedChange T)) := by
      rw [← hlenrev, takeGraphCommits_map_tagged]
      simp
    have hpathne : (takeGraphCommits chs.length
        ((mintedCommits chs ct).reverse ++ h0.chain)).isEmpty = false := by
      rw [List.isEmpty_eq_false_iff_exists_mem]
      have hl : (takeGraphCommits chs.length
          ((mintedCommits chs ct).reverse ++ h0.chain)).length = chs.length := by
        rw [← hlenrev, takeGraphCommits_length]
      have hpos : 0 < chs.length := List.length_pos.mpr hne
      rcases List.exists_mem_of_length_pos (by omega : 0 <
        (takeGraphCommits chs.length ((mintedCommits chs ct).reverse ++ h0.chain)).length)
        with ⟨x, hx⟩
      exact ⟨x, hx⟩
    rw [hrun]
    unfold TreeCheckout.commitTransaction
    rw [show TreeCheckout.checkNotDisposed
        ⟨(applyChanges ⟨h0, false⟩ ct chs).1, false, h0.top.revision :: trs, [],
          sn + 1, rb, rv, vw, (applyChanges ⟨h0, false⟩ ct chs).2⟩ none =
      .ok () from rfl]
    rw [hpop]
    simp only [hpathne, Bool.false_eq_true, if_false, hroll, hpathmap, hsq]
    -- the squash apply
    have happly : SharedTreeBranch.apply
        ⟨h0, (applyChanges ⟨h0, false⟩ ct chs).1.disposed⟩
        ((applyChanges ⟨h0, false⟩ ct chs).2 + (mintedCommits chs ct).reverse.length + 1 + 1)
        (tagChange sq
          ((applyChanges ⟨h0, false⟩ ct chs).2 + (mintedCommits chs ct).reverse.length + 1))
        CommitKind.Default =
        ⟨⟨⟨⟨(applyChanges ⟨h0, false⟩ ct chs).2 + (mintedCommits chs ct).reverse.length + 1,
              sq⟩, h0.chain⟩, false⟩,
          (applyChanges ⟨h0, false⟩ ct chs).2 + (mintedCommits chs ct).reverse.length + 1 + 1,
          [.emitBefore (.append CommitKind.Default
              (tagChange sq ((applyChanges ⟨h0, false⟩ ct chs).2 +
                (mintedCommits chs ct).reverse.length + 1))
              [⟨⟨(applyChanges ⟨h0, false⟩ ct chs).2 +
                  (mintedCommits chs ct).reverse.length + 1, sq⟩, h0.chain⟩]),
            .setHead ⟨⟨(applyChanges ⟨h0, false⟩ ct chs).2 +
              (mintedCommits chs ct).reverse.length + 1, sq⟩, h0.chain⟩,
            .emitAfter (.append CommitKind.Default
              (tagChange sq ((applyChanges ⟨h0, false⟩ ct chs).2 +
                (mintedCommits chs ct).reverse.length + 1))
              [⟨⟨(applyChanges ⟨h0, false⟩ ct chs).2 +
                  (mintedCommits chs ct).reverse.length + 1, sq⟩, h0.chain⟩])],
          .ok (sq, ⟨⟨(applyChanges ⟨h0, false⟩ ct chs).2 +
            (mintedCommits chs ct).reverse.length + 1, sq⟩, h0.chain⟩)⟩ := by
      unfold SharedTreeBranch.apply
      rw [hap.2.1]
      simp [tagChange, mintCommit]
    simp only [happly]
    refine ⟨trivial, ?_⟩
    rw [hap.2.2, hlenrev]
    congr 2
    omega

/-- Checkout used by the transaction witness: a live checkout at the root
commit with mint counter 5. -/
def cs0 : TreeCheckout (List Int) := ⟨⟨g0, false⟩, false, [], [], 0, [], [], 0, 5⟩

/-- Witness for C1: a transaction applying the two edits [1] and [2] on
`cs0` commits to a single squash commit over the old root whose change is
the composition [1, 2]. -/
theorem claim_C1_transaction_atomicity_witness :
    (runTransactionScenario famL cs0 [[1], [2]]).result = .ok () ∧
    (runTransactionScenario famL cs0 [[1], [2]]).checkout.branch.head =
      ⟨⟨10, [1, 2]⟩, g0.chain⟩ := by
  obtain ⟨sq, hsq, hres, hhead⟩ :=
    (claim_C1_transaction_atomicity famL cs0 [[1], [2]] rfl rfl rfl (by decide)
      (fun _ => rfl)).2 (by decide)
  rw [show famL.compose ((mintedCommits [[1], [2]] cs0.counter).map
      (fun c => (⟨some c.revision, none, c.change⟩ : TaggedChange (List Int)))) =
    some [1, 2] from by decide] at hsq
  obtain rfl : sq = [1, 2] := (Option.some.inj hsq).symm
  exact ⟨hres, hhead⟩
